import Mathlib

/-!
Verification of the local-homology neighbourhood-construction pipeline
("coning-off") specified for this repository, together with the notebook
code fragments under `src/examples/`.

The repository's own algorithmic code (the `gtda.local_homology`
transformers and the persistence engine they call) is not among the files
under `src/`; only the example notebooks that call it are.  Following the
specification, the pipeline (Neighborhood Selector, Cone-Point Augmenter,
Batch Orchestrator) and the external persistence engine are therefore
modelled here from the specification's words; each such definition carries
a doc comment starting with `Modelled from the spec:`.  The notebook code
that *is* under `src/` (`make_circle_adjacency`, the NLP preprocessing
cell, the pdist/squareform assertion) is translated directly.

Conventions fixed by this development (the spec leaves them open and asks
the implementer to document a choice):
* dissimilarities are rationals; an absent edge (numpy `inf`) is `none`
  in `Option ℚ`;
* the cone point's distance to a coned point is that point's original
  distance to the reference point (one of the two canonical choices the
  spec §9 offers);
* for the radius variant, the `InsufficientPoints` check counts points
  other than the reference point that lie within the outer radius.
-/

namespace LocalHom

/-- Insert `x` into `l` before the first element `y` with `le x y` true. -/
def insertLe {α : Type} (le : α → α → Bool) (x : α) : List α → List α
  | [] => [x]
  | y :: ys => if le x y then x :: y :: ys else y :: insertLe le x ys

/-- Insertion sort by a boolean comparison. -/
def sortLe {α : Type} (le : α → α → Bool) : List α → List α
  | [] => []
  | x :: xs => insertLe le x (sortLe le xs)

/-- Lexicographic comparison of vertex lists, used only as a deterministic
tie-break when ordering simplices of equal birth and dimension. -/
def lexLe : List ℕ → List ℕ → Bool
  | [], _ => true
  | _ :: _, [] => false
  | a :: as, b :: bs => if a < b then true else if b < a then false else lexLe as bs

/-- Modelled from the spec: a simplex of the clique-complex filtration the
external persistence engine builds from a dissimilarity matrix — its
strictly ascending vertex list and its birth (filtration) value. -/
structure Simplex where
  verts : List ℕ
  birth : ℚ

/-- Dimension of a simplex: one less than its number of vertices. -/
def dimOf (s : Simplex) : ℕ := s.verts.length - 1

/-- All pairs `(i, j)` with `i < j < N`, in lexicographic order. -/
def pairsBelow (N : ℕ) : List (ℕ × ℕ) :=
  ((List.range N).map (fun j => (List.range j).map (fun i => (i, j)))).flatten

/-- All triples `(a, i, j)` with `a < i < j < N`. -/
def triplesBelow (N : ℕ) : List (ℕ × ℕ × ℕ) :=
  ((pairsBelow N).map (fun p => (List.range p.1).map (fun a => (a, p.1, p.2)))).flatten

/-- Modelled from the spec: the vertices of the filtration, one per matrix
row, born at the diagonal entry (the spec's vertex weight; zero throughout
the pipeline's matrices). -/
def vertexList (N : ℕ) (M : ℕ → ℕ → Option ℚ) : List Simplex :=
  (List.range N).map (fun i => ⟨[i], (M i i).getD 0⟩)

/-- Modelled from the spec: the edges of the filtration — one per finite
off-diagonal entry, born at the edge weight; `none` entries are the
`infinity` sentinel meaning "edge absent". -/
def edgeList (N : ℕ) (M : ℕ → ℕ → Option ℚ) : List Simplex :=
  (pairsBelow N).filterMap (fun p =>
    match M p.1 p.2 with
    | some w => some ⟨[p.1, p.2], w⟩
    | none => none)

/-- Modelled from the spec: the triangles (2-simplices) of the clique
filtration — one per triangle of finite edges, born when its last edge
appears. -/
def triangleList (N : ℕ) (M : ℕ → ℕ → Option ℚ) : List Simplex :=
  (triplesBelow N).filterMap (fun t =>
    match M t.1 t.2.1, M t.1 t.2.2, M t.2.1 t.2.2 with
    | some w1, some w2, some w3 => some ⟨[t.1, t.2.1, t.2.2], max w1 (max w2 w3)⟩
    | _, _, _ => none)

/-- Filtration order: by birth, then dimension (faces before cofaces at
equal birth), then vertex list — a deterministic total order. -/
def simplexLe (s t : Simplex) : Bool :=
  if s.birth < t.birth then true
  else if t.birth < s.birth then false
  else if s.verts.length < t.verts.length then true
  else if t.verts.length < s.verts.length then false
  else lexLe s.verts t.verts

/-- Modelled from the spec: all simplices of the clique filtration of an
`N × N` dissimilarity matrix (dimensions 0–2, enough for homology
dimensions 0 and 1), sorted in filtration order. -/
def sortedSimplices (N : ℕ) (M : ℕ → ℕ → Option ℚ) : List Simplex :=
  sortLe simplexLe (vertexList N M ++ edgeList N M ++ triangleList N M)

/-- Position of the simplex with the given vertex list in the sorted list. -/
def posOf (l : List Simplex) (v : List ℕ) : ℕ := l.findIdx (fun s => s.verts == v)

/-- The codimension-1 faces of a vertex list; a vertex has none. -/
def facets (vs : List ℕ) : List (List ℕ) :=
  if vs.length ≤ 1 then []
  else (List.range vs.length).map (fun t => vs.eraseIdx t)

/-- Boundary column of a simplex as a bitmask over positions in the
sorted list: bit `p` is set when the facet at position `p` occurs (mod 2)
in the boundary. -/
def boundaryMask (sorted : List Simplex) (s : Simplex) : ℕ :=
  ((facets s.verts).map (posOf sorted)).foldr (fun p acc => Nat.xor (2 ^ p) acc) 0

/-- The column-reduction loop of the standard persistence algorithm on a
bitmask column: scan candidate pivot positions downward from the fuel
bound; at a set bit whose pivot is already owned, add (mod 2, i.e. xor)
the owning column and continue below; an unowned set bit is the column's
pivot; a vanished column means the simplex creates a class. -/
def reduceLoop (pivots : List (ℕ × ℕ)) : ℕ → ℕ → Option (ℕ × ℕ)
  | 0, _ => none
  | c + 1, mask =>
    if mask = 0 then none
    else if mask.testBit c then
      match pivots.lookup c with
      | none => some (c, mask)
      | some cmask => reduceLoop pivots c (Nat.xor mask cmask)
    else reduceLoop pivots c mask

/-- State of the persistence reduction: owned reduced columns keyed by
their pivot position, the creators (position, dimension, birth) of
homology classes, and the recorded deaths keyed by the killed creator's
position. -/
structure RedState where
  pivots : List (ℕ × ℕ)
  creators : List (ℕ × ℕ × ℚ)
  kills : List (ℕ × ℚ)

/-- One step of the reduction, processing the simplex at position `k`. -/
def redStep (total : ℕ) (sorted : List Simplex) (st : RedState) (k : ℕ)
    (s : Simplex) : RedState :=
  match reduceLoop st.pivots total (boundaryMask sorted s) with
  | none => ⟨st.pivots, st.creators ++ [(k, dimOf s, s.birth)], st.kills⟩
  | some pm => ⟨pm :: st.pivots, st.creators, (pm.1, s.birth) :: st.kills⟩

/-- Run the reduction over the remaining simplices, `k` the position of the
first.  Each step's result is matched to a constructor before the
recursive call, so kernel evaluation of concrete instances stays
iterative (every reduction step is completed at its own iteration rather
than deferred into a long chain of pending steps). -/
def redRun (total : ℕ) (sorted : List Simplex) : ℕ → RedState → List Simplex → RedState
  | _, st, [] => st
  | k, st, s :: rest =>
    match redStep total sorted st k s with
    | ⟨pivots, creators, kills⟩ =>
      redRun total sorted (k + 1) ⟨pivots, creators, kills⟩ rest

/-- Modelled from the spec: one (birth, death) pair of the persistence
diagram in one homology dimension; `none` is an infinite death. -/
structure Bar where
  dim : ℕ
  birth : ℚ
  death : Option ℚ

/-- Modelled from the spec: the external persistence engine — the standard
matrix-reduction persistence computation on the clique-complex filtration
of an `N × N` dissimilarity matrix, returning all (birth, death) pairs per
dimension (death may be infinite; no pair is discarded). -/
def persistenceDiagram (N : ℕ) (M : ℕ → ℕ → Option ℚ) : List Bar :=
  let sorted := sortedSimplices N M
  let st := redRun sorted.length sorted 0 ⟨[], [], []⟩ sorted
  st.creators.map (fun c => ⟨c.2.1, c.2.2, st.kills.lookup c.1⟩)

/-- Number of features (bars) of one homology dimension, zero-length bars
included. -/
def featureCount (d : ℕ) (bars : List Bar) : ℕ :=
  (bars.filter (fun b => b.dim == d)).length

/-- Number of nontrivial features of one homology dimension: bars whose
death differs from their birth (infinite deaths included). -/
def nontrivialCount (d : ℕ) (bars : List Bar) : ℕ :=
  (bars.filter (fun b => b.dim == d && decide (b.death ≠ some b.birth))).length

/-- Modelled from the spec: a `NeighborhoodSpec` is one of two variants,
radius bounds (rationals) or nearest-neighbour count bounds. -/
inductive NeighborhoodSpec where
  | radiusSpec (inner_radius outer_radius : ℚ)
  | knnSpec (inner_k outer_k : ℕ)

/-- Modelled from the spec: the Neighborhood Selector's error kinds. -/
inductive SelectError where
  | invalidSpec
  | insufficientPoints
deriving DecidableEq

/-- Order on point indices by distance to the reference point, ties broken
deterministically by original point index (the spec's own example). -/
def distKey (D : ℕ → ℕ → ℚ) (r : ℕ) (a b : ℕ) : Bool :=
  if D r a < D r b then true else if D r b < D r a then false else a ≤ b

/-- The indices other than the reference point, sorted by distance to it
(ties by index). -/
def othersSorted (n : ℕ) (D : ℕ → ℕ → ℚ) (r : ℕ) : List ℕ :=
  sortLe (distKey D r) ((List.range n).filter (fun i => decide (i ≠ r)))

/-- Modelled from the spec: the Neighborhood Selector (§4.1).  Input is the
point cloud as its `n × n` pairwise dissimilarity matrix `D`, a reference
index `r`, a spec, and the caller's strict-non-emptiness flag for the
radius case.  It fails with `invalidSpec` when the inner bound exceeds the
outer bound, with `insufficientPoints` when the cloud has fewer than
`outer_k + 1` points (KNN) or, when `strict` is set, no point other than
the reference lies within the outer radius (radius); otherwise it returns
the kept and coned index lists. -/
def select (n : ℕ) (D : ℕ → ℕ → ℚ) (r : ℕ) (spec : NeighborhoodSpec) (strict : Bool) :
    Except SelectError (List ℕ × List ℕ) :=
  match spec with
  | .radiusSpec inR outR =>
    if outR < inR then .error .invalidSpec
    else if strict &&
        ((List.range n).filter (fun i => decide (i ≠ r) && decide (D r i ≤ outR))).isEmpty then
      .error .insufficientPoints
    else
      .ok ((List.range n).filter (fun i => decide (D r i ≤ inR)),
           (List.range n).filter (fun i => decide (inR < D r i) && decide (D r i ≤ outR)))
  | .knnSpec inner_k outer_k =>
    if outer_k < inner_k then .error .invalidSpec
    else if n < outer_k + 1 then .error .insufficientPoints
    else
      let others := othersSorted n D r
      .ok (r :: others.take inner_k, (others.drop inner_k).take (outer_k - inner_k))

/-- The spec's `InvalidSpec` condition: the inner bound exceeds the outer
bound. -/
def specInvalid : NeighborhoodSpec → Prop
  | .radiusSpec inR outR => outR < inR
  | .knnSpec inner_k outer_k => outer_k < inner_k

/-- The spec's `InsufficientPoints` condition: fewer than `outer_k + 1`
cloud points (KNN), or — under the caller's strictness flag — no point
other than the reference within the outer radius (radius). -/
def insufficientFor (n : ℕ) (D : ℕ → ℕ → ℚ) (r : ℕ) (strict : Bool) :
    NeighborhoodSpec → Prop
  | .radiusSpec _ outR => strict = true ∧ ∀ i < n, i ≠ r → ¬ D r i ≤ outR
  | .knnSpec _ outer_k => n < outer_k + 1

/-- The sub-cloud's index list: kept points first, then coned points. -/
def subIndices (kept coned : List ℕ) : List ℕ := kept ++ coned

/-- The kept+coned sub-cloud's pairwise dissimilarity matrix. -/
def subMatrix (D : ℕ → ℕ → ℚ) (kept coned : List ℕ) : ℕ → ℕ → ℚ :=
  fun i j => D ((subIndices kept coned).getD i 0) ((subIndices kept coned).getD j 0)

/-- The chosen cone-distance convention: a coned point's distance to the
cone point is its original distance to the reference point. -/
def coneWeights (D : ℕ → ℕ → ℚ) (r : ℕ) (kept coned : List ℕ) : ℕ → ℚ :=
  fun i => D r ((subIndices kept coned).getD i 0)

/-- Modelled from the spec: the Cone-Point Augmenter (§4.2).  Given the
`m × m` sub-cloud matrix, the number of kept points (which occupy the
first `keptCount` sub-cloud positions), and the cone-distance values, it
produces the `(m+1) × (m+1)` LocalComplex matrix: original distances are
unchanged, a coned point and the cone point (index `m`) are joined at the
cone distance, a kept point has no edge to the cone point (`none`, the
infinity sentinel), and the cone point's diagonal entry is zero. -/
def augment (m keptCount : ℕ) (sub : ℕ → ℕ → ℚ) (cw : ℕ → ℚ) : ℕ → ℕ → Option ℚ :=
  fun i j =>
    if i < m ∧ j < m then some (sub i j)
    else if i < m ∧ j = m then (if keptCount ≤ i then some (cw i) else none)
    else if i = m ∧ j < m then (if keptCount ≤ j then some (cw j) else none)
    else if i = m ∧ j = m then some 0
    else some 0

/-- The Select-then-Augment pipeline's LocalComplex matrix, defined on
indices `0 … m` where `m` is the number of kept+coned points. -/
def localComplex (D : ℕ → ℕ → ℚ) (r : ℕ) (kept coned : List ℕ) : ℕ → ℕ → Option ℚ :=
  augment (subIndices kept coned).length kept.length
    (subMatrix D kept coned) (coneWeights D r kept coned)

/-- The outer bound as a distance threshold: the outer radius for a radius
spec, and the largest sub-cloud distance to the reference point for a KNN
spec (the threshold at which the outermost selected neighbour links). -/
def outerBound (D : ℕ → ℕ → ℚ) (r : ℕ) (spec : NeighborhoodSpec)
    (kept coned : List ℕ) : ℚ :=
  match spec with
  | .radiusSpec _ outR => outR
  | .knnSpec _ _ => ((subIndices kept coned).map (D r)).foldr max 0

/-- Modelled from the spec: one task of the Batch Orchestrator — select,
augment, and run the persistence engine for one reference point; a
selection failure is recorded in that point's row. -/
def processPoint (n : ℕ) (D : ℕ → ℕ → ℚ) (spec : NeighborhoodSpec) (strict : Bool)
    (r : ℕ) : Except SelectError (List Bar) :=
  match select n D r spec strict with
  | .error e => .error e
  | .ok kc =>
    .ok (persistenceDiagram ((subIndices kc.1 kc.2).length + 1) (localComplex D r kc.1 kc.2))

/-- Modelled from the spec: the Batch Orchestrator's sequential execution —
one output row per reference point, in point order. -/
def orchestrate (n : ℕ) (D : ℕ → ℕ → ℚ) (spec : NeighborhoodSpec) (strict : Bool) :
    List (Except SelectError (List Bar)) :=
  (List.range n).map (processPoint n D spec strict)

/-- Modelled from the spec: a parallel execution of the batch — the
independent per-point tasks run in an arbitrary schedule `order`, each
producing its row tagged with its point index. -/
def runTasks (n : ℕ) (D : ℕ → ℕ → ℚ) (spec : NeighborhoodSpec) (strict : Bool)
    (order : List ℕ) : List (ℕ × Except SelectError (List Bar)) :=
  order.map (fun r => (r, processPoint n D spec strict r))

/-- Assemble the scheduled tasks' tagged rows into the output table by
point index. -/
def assemble (n : ℕ) (results : List (ℕ × Except SelectError (List Bar))) :
    List (Option (Except SelectError (List Bar))) :=
  (List.range n).map (fun r => results.lookup r)

/-- The 10-point 1-dimensional uniform line of the line/plane/cube example
(`np.linspace(0, 1, num=10, endpoint=False)`), written at spacing 1 (the
uniform line rescaled by 10): its dissimilarity matrix `|i - j|`. -/
def lineD (i j : ℕ) : ℚ := (((i : ℤ) - (j : ℤ)).natAbs : ℚ)

/-- The nontrivial dimension-1 feature count the pipeline yields at one
reference point of the 10-point line with `KNNSpec(1, 7)` (`none` records
a selection failure). -/
def lineH1Count (r : ℕ) : Option ℕ :=
  match processPoint 10 lineD (.knnSpec 1 7) false r with
  | .error _ => none
  | .ok bars => some (nontrivialCount 1 bars)

/-- The X-shaped point cloud: a 4-branch intersection at the origin, one
point per branch at spacing 10 along the axes. -/
def xPts : List (ℤ × ℤ) := [(0, 0), (10, 0), (-10, 0), (0, 10), (0, -10)]

/-- Squared Euclidean distance of two integer plane points, as a rational
dissimilarity. -/
def sqDist (p q : ℤ × ℤ) : ℚ :=
  (((p.1 - q.1) * (p.1 - q.1) + (p.2 - q.2) * (p.2 - q.2) : ℤ) : ℚ)

/-- The X-shaped cloud's squared-Euclidean dissimilarity matrix. -/
def xD (i j : ℕ) : ℚ := sqDist (xPts.getD i (0, 0)) (xPts.getD j (0, 0))

/-- The nontrivial dimension-1 feature count the pipeline yields at the
X cloud's intersection point (index 0) with squared radius bounds
`(50, 150)`: the inner ball keeps the intersection point, the annulus
cones off all four branch points. -/
def xH1Count : Option ℕ :=
  match processPoint 5 xD (.radiusSpec 50 150) false 0 with
  | .error _ => none
  | .ok bars => some (nontrivialCount 1 bars)

/-- Translated from `persistent_homology_graphs.ipynb`: the helper
`make_circle_adjacency(n_vertices, directed=False)` as the list of COO
triples `(row, column, weight)` it stores — `weights = np.ones(n_vertices)`,
`rows = np.arange(n_vertices)`, `columns = np.arange(1, n_vertices + 1) %
n_vertices`.  The `directed` parameter appears in the signature (default
`False` at call sites) and is never read in the body. -/
def make_circle_adjacency (n_vertices : ℕ) (directed : Bool) : List (ℕ × ℕ × ℚ) :=
  let weights := List.replicate n_vertices (1 : ℚ)
  let rows := List.range n_vertices
  let columns := (List.range' 1 n_vertices).map (fun c => c % n_vertices)
  rows.zip (columns.zip weights)

/-- Python's slice `s[a : -b]` on a character list. -/
def pySlice (a b : ℕ) (s : List Char) : List Char := (s.take (s.length - b)).drop a

/-- Translated from `local_hom_NLP_disambiguation.ipynb`: the
`refined_list` comprehension — for `i` in `range(2, len(list_of_text))`,
`list_of_text[i][1 + len(str(i)) : -12 - len(str(i))]`. -/
def refinedFrom (list_of_text : List (List Char)) : List (List Char) :=
  (List.range' 2 (list_of_text.length - 2)).map
    (fun i => pySlice (1 + (Nat.repr i).length) (12 + (Nat.repr i).length)
      (list_of_text.getD i []))

/-- Translated from `local_hom_NLP_disambiguation.ipynb`: the whole
preprocessing cell — `list_of_text` is assigned from `remove_stopwords`
over `temp_list`, immediately reassigned from `stem` over `temp_list`
(both over `temp_list`, not over the previous value), and `refined_list`
is built from the final `list_of_text`.  Text is a character list and the
two gensim primitives are abstract text transformations. -/
def preprocessCell (remove_stopwords stem : List Char → List Char)
    (temp_list : List (List Char)) : List (List Char) :=
  let list_of_text := temp_list.map remove_stopwords
  let list_of_text := temp_list.map stem
  refinedFrom list_of_text

/-- The same cell with the `remove_stopwords` line deleted. -/
def preprocessCellNoStop (stem : List Char → List Char)
    (temp_list : List (List Char)) : List (List Char) :=
  let list_of_text := temp_list.map stem
  refinedFrom list_of_text

/-- The row-major enumeration of the strict upper-triangle pairs
`(i, j)`, `i < j < n` — the index order of scipy's condensed distance
vector. -/
def upperPairs (n : ℕ) : List (ℕ × ℕ) :=
  ((List.range n).map (fun i => (List.range' (i + 1) (n - (i + 1))).map (fun j => (i, j)))).flatten

/-- The condensed index of pair `(i, j)`, `i < j < n`: its position in the
row-major upper-triangle enumeration — the number scipy's formula
`n * i - i * (i + 1) / 2 + (j - i - 1)` computes. -/
def condensedIndex (n i j : ℕ) : ℕ := (upperPairs n).findIdx (fun p => p == (i, j))

/-- Modelled from the spec: scipy's `pdist` — the condensed vector of the
pairwise distances `d i j` for `i < j < n`, row by row (the function
itself is outside this repository; its documented output layout is
modelled). -/
def pdist (n : ℕ) (d : ℕ → ℕ → ℚ) : List ℚ :=
  (upperPairs n).map (fun p => d p.1 p.2)

/-- Modelled from the spec: scipy's `squareform` on a condensed distance
vector — the square matrix with zero diagonal whose off-diagonal entries
are read from the condensed vector. -/
def squareform (n : ℕ) (v : List ℚ) : ℕ → ℕ → ℚ :=
  fun i j =>
    if i = j then 0
    else if i < j then v.getD (condensedIndex n i j) 0
    else v.getD (condensedIndex n j i) 0

/-- Modelled from the spec: `VietorisRipsPersistence` in its default
point-cloud mode — the engine run on the matrix of pairwise metric values
`d` of the cloud's points (the metric evaluated directly, no matrix is
materialised). -/
def vietorisRipsPointCloud (n : ℕ) (d : ℕ → ℕ → ℚ) : List Bar :=
  persistenceDiagram n (fun i j => some (d i j))

/-- Modelled from the spec: `VietorisRipsPersistence(metric="precomputed")`
— the engine run on a caller-supplied square dissimilarity matrix. -/
def vietorisRipsPrecomputed (n : ℕ) (Q : ℕ → ℕ → ℚ) : List Bar :=
  persistenceDiagram n (fun i j => some (Q i j))

/-! ### General lemmas about the sorting and counting utilities -/

theorem insertLe_perm {α : Type} (le : α → α → Bool) (x : α) (l : List α) :
    (insertLe le x l).Perm (x :: l) := by
  induction l with
  | nil => exact List.Perm.refl _
  | cons y ys ih =>
    simp only [insertLe]
    split
    · exact List.Perm.refl _
    · exact (ih.cons y).trans (List.Perm.swap x y ys)

theorem sortLe_perm {α : Type} (le : α → α → Bool) (l : List α) :
    (sortLe le l).Perm l := by
  induction l with
  | nil => exact List.Perm.refl _
  | cons x xs ih => exact (insertLe_perm le x (sortLe le xs)).trans (ih.cons x)

/-! ### The engine's dimension-0 features: one per vertex -/

theorem mem_vertexList_len {N : ℕ} {M : ℕ → ℕ → Option ℚ} {s : Simplex}
    (h : s ∈ vertexList N M) : s.verts.length = 1 := by
  simp only [vertexList, List.mem_map] at h
  obtain ⟨i, -, rfl⟩ := h
  rfl

theorem mem_edgeList_len {N : ℕ} {M : ℕ → ℕ → Option ℚ} {s : Simplex}
    (h : s ∈ edgeList N M) : s.verts.length = 2 := by
  simp only [edgeList, List.mem_filterMap] at h
  obtain ⟨p, -, hp⟩ := h
  rcases hw : M p.1 p.2 with - | w <;> rw [hw] at hp
  · exact absurd hp (by simp)
  · cases hp.symm.trans rfl; rfl

theorem mem_triangleList_len {N : ℕ} {M : ℕ → ℕ → Option ℚ} {s : Simplex}
    (h : s ∈ triangleList N M) : s.verts.length = 3 := by
  simp only [triangleList, List.mem_filterMap] at h
  obtain ⟨t, -, ht⟩ := h
  rcases h1 : M t.1 t.2.1 with - | w1 <;> rcases h2 : M t.1 t.2.2 with - | w2 <;>
    rcases h3 : M t.2.1 t.2.2 with - | w3 <;> rw [h1, h2, h3] at ht <;>
    simp at ht <;> (subst ht; rfl)

theorem sortedSimplices_shape {N : ℕ} {M : ℕ → ℕ → Option ℚ} {s : Simplex}
    (h : s ∈ sortedSimplices N M) :
    s.verts.length = 1 ∨ s.verts.length = 2 ∨ s.verts.length = 3 := by
  have h' := (sortLe_perm simplexLe _).mem_iff.mp h
  rcases List.mem_append.mp h' with h'' | h''
  · rcases List.mem_append.mp h'' with hv | he
    · exact Or.inl (mem_vertexList_len hv)
    · exact Or.inr (Or.inl (mem_edgeList_len he))
  · exact Or.inr (Or.inr (mem_triangleList_len h''))

theorem countP_len1_vertexList (N : ℕ) (M : ℕ → ℕ → Option ℚ) :
    (vertexList N M).countP (fun s => s.verts.length == 1) = N := by
  unfold vertexList
  rw [List.countP_map]
  simp [Function.comp_def]

theorem countP_len1_edgeList (N : ℕ) (M : ℕ → ℕ → Option ℚ) :
    (edgeList N M).countP (fun s => s.verts.length == 1) = 0 := by
  rw [List.countP_eq_zero]
  intro s hs
  simp [mem_edgeList_len hs]

theorem countP_len1_triangleList (N : ℕ) (M : ℕ → ℕ → Option ℚ) :
    (triangleList N M).countP (fun s => s.verts.length == 1) = 0 := by
  rw [List.countP_eq_zero]
  intro s hs
  simp [mem_triangleList_len hs]

theorem countP_len1_sorted (N : ℕ) (M : ℕ → ℕ → Option ℚ) :
    (sortedSimplices N M).countP (fun s => s.verts.length == 1) = N := by
  unfold sortedSimplices
  rw [(sortLe_perm simplexLe _).countP_eq, List.countP_append, List.countP_append,
    countP_len1_vertexList, countP_len1_edgeList, countP_len1_triangleList]
  omega

theorem facets_of_len_le_one {vs : List ℕ} (h : vs.length ≤ 1) : facets vs = [] := by
  simp [facets, h]

theorem reduceLoop_zero_mask (pivots : List (ℕ × ℕ)) (fuel : ℕ) :
    reduceLoop pivots fuel 0 = none := by
  cases fuel <;> simp [reduceLoop]

theorem redRun_cons (total : ℕ) (sorted : List Simplex) (k : ℕ) (st : RedState)
    (s : Simplex) (rest : List Simplex) :
    redRun total sorted k st (s :: rest)
      = redRun total sorted (k + 1) (redStep total sorted st k s) rest := by
  rw [redRun]

theorem redStep_len1 (total : ℕ) (sorted : List Simplex) (st : RedState) (k : ℕ)
    {s : Simplex} (h : s.verts.length = 1) :
    redStep total sorted st k s
      = ⟨st.pivots, st.creators ++ [(k, 0, s.birth)], st.kills⟩ := by
  have hb : boundaryMask sorted s = 0 := by
    rw [boundaryMask, facets_of_len_le_one (by omega)]
    rfl
  have hd : dimOf s = 0 := by simp [dimOf, h]
  rw [redStep, hb, reduceLoop_zero_mask, hd]

theorem redStep_creators (total : ℕ) (sorted : List Simplex) (st : RedState) (k : ℕ)
    (s : Simplex) :
    (redStep total sorted st k s).creators = st.creators ∨
      (redStep total sorted st k s).creators
        = st.creators ++ [(k, dimOf s, s.birth)] := by
  rw [redStep]
  rcases reduceLoop st.pivots total (boundaryMask sorted s) with - | pm
  · exact Or.inr rfl
  · exact Or.inl rfl

theorem redRun_countP_len1 (total : ℕ) (sorted : List Simplex) (l : List Simplex) :
    ∀ (k : ℕ) (st : RedState),
      (∀ s ∈ l, s.verts.length = 1 ∨ s.verts.length = 2 ∨ s.verts.length = 3) →
      (redRun total sorted k st l).creators.countP (fun c => c.2.1 == 0)
        = st.creators.countP (fun c => c.2.1 == 0)
          + l.countP (fun s => s.verts.length == 1) := by
  induction l with
  | nil => intro k st _; simp [redRun]
  | cons s rest ih =>
    intro k st h
    have hs := h s (List.mem_cons_self s rest)
    have hrest : ∀ t ∈ rest, t.verts.length = 1 ∨ t.verts.length = 2 ∨ t.verts.length = 3 :=
      fun t ht => h t (List.mem_cons_of_mem s ht)
    rw [redRun_cons, ih (k + 1) _ hrest, List.countP_cons]
    rcases hs with h1 | h23
    · rw [redStep_len1 total sorted st k h1]
      simp [List.countP_append, List.countP_cons, h1]
      omega
    · have hlen2 : 2 ≤ s.verts.length := by rcases h23 with h2 | h3 <;> omega
      have hdim : (dimOf s == 0) = false := by
        have hne : dimOf s ≠ 0 := by unfold dimOf; omega
        simpa using hne
      have hlen : (s.verts.length == 1) = false := by
        have hne : s.verts.length ≠ 1 := by omega
        simpa using hne
      rcases redStep_creators total sorted st k s with hc | hc <;> rw [hc] <;>
        simp [List.countP_append, List.countP_cons, hdim, hlen]

/-- Every vertex of the filtration — and nothing else — creates a
dimension-0 class, so the engine reports exactly `N` dimension-0 features
for an `N × N` matrix (all vertices are born; the one never-dying
component is kept, following the spec's engine contract). -/
theorem featureCount_zero (N : ℕ) (M : ℕ → ℕ → Option ℚ) :
    featureCount 0 (persistenceDiagram N M) = N := by
  rw [featureCount, persistenceDiagram, ← List.countP_eq_length_filter, List.countP_map]
  have h := redRun_countP_len1 (sortedSimplices N M).length (sortedSimplices N M)
    (sortedSimplices N M) 0 ⟨[], [], []⟩ (fun s hs => sortedSimplices_shape hs)
  have hcomp : ((fun (b : Bar) => b.dim == 0) ∘
      (fun c => (⟨c.2.1, c.2.2, (redRun (sortedSimplices N M).length (sortedSimplices N M)
        0 ⟨[], [], []⟩ (sortedSimplices N M)).kills.lookup c.1⟩ : Bar)))
      = fun (c : ℕ × ℕ × ℚ) => c.2.1 == 0 := rfl
  rw [hcomp, h, countP_len1_sorted]
  simp

/-! ### Selector lemmas -/

theorem select_radius_ok {n : ℕ} {D : ℕ → ℕ → ℚ} {r : ℕ} {inR outR : ℚ} {strict : Bool}
    {kept coned : List ℕ}
    (h : select n D r (.radiusSpec inR outR) strict = .ok (kept, coned)) :
    kept = (List.range n).filter (fun i => decide (D r i ≤ inR)) ∧
      coned = (List.range n).filter (fun i => decide (inR < D r i) && decide (D r i ≤ outR)) := by
  rw [select] at h
  split at h
  · exact absurd h (by simp)
  · split at h
    · exact absurd h (by simp)
    · have h' := Except.ok.inj h
      exact ⟨(congrArg Prod.fst h').symm, (congrArg Prod.snd h').symm⟩

theorem select_knn_ok {n : ℕ} {D : ℕ → ℕ → ℚ} {r : ℕ} {inner_k outer_k : ℕ} {strict : Bool}
    {kept coned : List ℕ}
    (h : select n D r (.knnSpec inner_k outer_k) strict = .ok (kept, coned)) :
    kept = r :: (othersSorted n D r).take inner_k ∧
      coned = ((othersSorted n D r).drop inner_k).take (outer_k - inner_k) := by
  rw [select] at h
  split at h
  · exact absurd h (by simp)
  · split at h
    · exact absurd h (by simp)
    · have h' := Except.ok.inj h
      exact ⟨(congrArg Prod.fst h').symm, (congrArg Prod.snd h').symm⟩

theorem mem_othersSorted {n : ℕ} {D : ℕ → ℕ → ℚ} {r i : ℕ}
    (h : i ∈ othersSorted n D r) : i < n ∧ i ≠ r := by
  have h' := (sortLe_perm (distKey D r) _).mem_iff.mp h
  simp only [List.mem_filter, List.mem_range, decide_eq_true_eq] at h'
  exact h'

/-- Every index the selector returns is an index into the point cloud. -/
theorem select_ok_mem {n : ℕ} {D : ℕ → ℕ → ℚ} {r : ℕ} {spec : NeighborhoodSpec}
    {strict : Bool} {kept coned : List ℕ} (hr : r < n)
    (h : select n D r spec strict = .ok (kept, coned)) :
    ∀ p ∈ subIndices kept coned, p < n := by
  intro p hp
  rcases spec with ⟨inR, outR⟩ | ⟨inner_k, outer_k⟩
  · obtain ⟨hk, hc⟩ := select_radius_ok h
    rcases List.mem_append.mp hp with hm | hm
    · rw [hk] at hm
      exact List.mem_range.mp (List.mem_of_mem_filter hm)
    · rw [hc] at hm
      exact List.mem_range.mp (List.mem_of_mem_filter hm)
  · obtain ⟨hk, hc⟩ := select_knn_ok h
    rcases List.mem_append.mp hp with hm | hm
    · rw [hk] at hm
      rcases List.mem_cons.mp hm with rfl | hm'
      · exact hr
      · exact (mem_othersSorted (List.mem_of_mem_take hm')).1
    · rw [hc] at hm
      exact (mem_othersSorted (List.mem_of_mem_drop (List.mem_of_mem_take hm))).1

theorem getD_mem_of_lt {l : List ℕ} {i : ℕ} (h : i < l.length) : l.getD i 0 ∈ l := by
  rw [List.getD_eq_getElem l 0 h]
  exact List.getElem_mem h

/-! ### Augmenter lemmas -/

theorem augment_interior {m keptCount : ℕ} {sub : ℕ → ℕ → ℚ} {cw : ℕ → ℚ} {i j : ℕ}
    (hi : i < m) (hj : j < m) : augment m keptCount sub cw i j = some (sub i j) := by
  simp [augment, hi, hj]

theorem augment_cone_kept {m keptCount : ℕ} {sub : ℕ → ℕ → ℚ} {cw : ℕ → ℚ} {i : ℕ}
    (hi : i < m) (hk : i < keptCount) :
    augment m keptCount sub cw i m = none ∧ augment m keptCount sub cw m i = none := by
  constructor <;> simp [augment, hi, hk] <;> omega

theorem augment_cone_coned {m keptCount : ℕ} {sub : ℕ → ℕ → ℚ} {cw : ℕ → ℚ} {i : ℕ}
    (hi : i < m) (hk : keptCount ≤ i) :
    augment m keptCount sub cw i m = some (cw i) ∧
      augment m keptCount sub cw m i = some (cw i) := by
  constructor <;> simp [augment, hi, hk] <;> omega

theorem augment_last {m keptCount : ℕ} (sub : ℕ → ℕ → ℚ) (cw : ℕ → ℚ) :
    augment m keptCount sub cw m m = some 0 := by
  simp [augment]

theorem augment_symm {m keptCount : ℕ} {sub : ℕ → ℕ → ℚ} {cw : ℕ → ℚ}
    (hsub : ∀ i j, i < m → j < m → sub i j = sub j i) (i j : ℕ) :
    augment m keptCount sub cw i j = augment m keptCount sub cw j i := by
  unfold augment
  split_ifs with h1 h2 h3 h4 h5 h6 h7 h8 h9 <;>
    first
      | rfl
      | (exact congrArg some (hsub i j h1.1 h1.2))
      | omega

theorem foldr_max_le_of_mem {l : List ℚ} {a : ℚ} (b : ℚ) (h : a ∈ l) :
    a ≤ l.foldr max b := by
  induction l with
  | nil => cases h
  | cons x xs ih =>
    rcases List.mem_cons.mp h with rfl | h'
    · exact le_max_left _ _
    · exact (ih h').trans (le_max_right _ _)

theorem radius_empty_iff (n : ℕ) (D : ℕ → ℕ → ℚ) (r : ℕ) (outR : ℚ) (strict : Bool) :
    (strict &&
        ((List.range n).filter (fun i => decide (i ≠ r) && decide (D r i ≤ outR))).isEmpty) = true
      ↔ (strict = true ∧ ∀ i < n, i ≠ r → ¬ D r i ≤ outR) := by
  rw [Bool.and_eq_true, List.isEmpty_iff, List.filter_eq_nil_iff]
  simp

/-! ### The claims -/

/-- C1: for every point cloud (given as its pairwise dissimilarity matrix,
symmetric with zero diagonal) and every spec the selector accepts, the
Select-then-Augment LocalComplex matrix — square of size `(m+1) × (m+1)`
by construction, `m` the number of kept+coned points — is symmetric and
has zero on every diagonal entry. -/
theorem claim1_localComplex_symm_zero_diag (n : ℕ) (D : ℕ → ℕ → ℚ) (r : ℕ)
    (spec : NeighborhoodSpec) (strict : Bool) (kept coned : List ℕ)
    (hsym : ∀ i < n, ∀ j < n, D i j = D j i)
    (hdiag : ∀ i < n, D i i = 0)
    (hr : r < n)
    (hsel : select n D r spec strict = .ok (kept, coned)) :
    (∀ i j, localComplex D r kept coned i j = localComplex D r kept coned j i) ∧
    (∀ i, i ≤ (subIndices kept coned).length →
        localComplex D r kept coned i i = some 0) := by
  have hmem := select_ok_mem hr hsel
  constructor
  · intro i j
    apply augment_symm
    intro a b ha hb
    exact hsym _ (hmem _ (getD_mem_of_lt ha)) _ (hmem _ (getD_mem_of_lt hb))
  · intro i hi
    rcases Nat.lt_or_ge i (subIndices kept coned).length with h | h
    · rw [localComplex, augment_interior h h]
      exact congrArg some (hdiag _ (hmem _ (getD_mem_of_lt h)))
    · have hieq : i = (subIndices kept coned).length := by omega
      rw [hieq]
      exact augment_last _ _

/-- C1 witness: the 10-point line with radius bounds (1, 2) at reference
point 0 — kept `[0, 1]`, coned `[2]`. -/
theorem claim1_witness :
    (∀ i j, localComplex lineD 0 [0, 1] [2] i j = localComplex lineD 0 [0, 1] [2] j i) ∧
    (∀ i, i ≤ (subIndices [0, 1] [2]).length →
        localComplex lineD 0 [0, 1] [2] i i = some 0) :=
  claim1_localComplex_symm_zero_diag 10 lineD 0 (.radiusSpec 1 2) false [0, 1] [2]
    (by decide) (by decide) (by omega) rfl

/-- C2 counterexample: with a one-point cloud and `KNNSpec(2, 1)` both the
invalid-spec condition (2 > 1) and the claimed insufficiency condition
(1 < outer_k + 1 = 2) hold, and the selector reports `InvalidSpec` — so
"fails with `InsufficientPoints` exactly when the point cloud has fewer
than outer_k + 1 points" is false at this input. -/
theorem claim2_counterexample :
    ¬ (select 1 (fun _ _ => 0) 0 (.knnSpec 2 1) false = .error .insufficientPoints
        ↔ 1 < 1 + 1) := by
  intro h
  have h' := h.mpr (by omega)
  have hval : select 1 (fun _ _ => (0 : ℚ)) 0 (.knnSpec 2 1) false
      = .error .invalidSpec := rfl
  rw [hval] at h'
  simp at h'

/-- C2 (amended): the selector fails with `InvalidSpec` exactly when the
inner bound exceeds the outer bound; it fails with `InsufficientPoints`
exactly when the spec is valid *and* the insufficiency condition holds
(fewer than `outer_k + 1` points for KNN; under the strictness flag, no
point other than the reference within the outer radius); on every valid
input it succeeds. -/
theorem claim2_selector_errors (n : ℕ) (D : ℕ → ℕ → ℚ) (r : ℕ)
    (spec : NeighborhoodSpec) (strict : Bool) :
    (select n D r spec strict = .error .invalidSpec ↔ specInvalid spec) ∧
    (select n D r spec strict = .error .insufficientPoints ↔
      ¬ specInvalid spec ∧ insufficientFor n D r strict spec) ∧
    (¬ specInvalid spec → ¬ insufficientFor n D r strict spec →
      ∃ kept coned, select n D r spec strict = .ok (kept, coned)) := by
  rcases spec with ⟨inR, outR⟩ | ⟨inner_k, outer_k⟩
  · by_cases h1 : outR < inR
    · have hs : select n D r (.radiusSpec inR outR) strict = .error .invalidSpec := by
        simp [select, h1]
      refine ⟨?_, ?_, ?_⟩
      · rw [hs]
        exact ⟨fun _ => h1, fun _ => rfl⟩
      · rw [hs]
        exact ⟨fun h => absurd h (by simp), fun h => absurd h1 h.1⟩
      · intro hni _
        exact absurd h1 hni
    · by_cases hb : strict = true ∧ ∀ i < n, i ≠ r → ¬ D r i ≤ outR
      · have hs : select n D r (.radiusSpec inR outR) strict = .error .insufficientPoints := by
          simp only [select]
          rw [if_neg h1, if_pos ((radius_empty_iff n D r outR strict).mpr hb)]
        refine ⟨?_, ?_, ?_⟩
        · rw [hs]
          exact ⟨fun h => absurd h (by simp), fun hinv => absurd hinv h1⟩
        · rw [hs]
          exact ⟨fun _ => ⟨h1, hb⟩, fun _ => rfl⟩
        · intro _ hnin
          exact absurd hb hnin
      · have hbf : ¬ (strict &&
            ((List.range n).filter
              (fun i => decide (i ≠ r) && decide (D r i ≤ outR))).isEmpty) = true :=
          fun hc => hb ((radius_empty_iff n D r outR strict).mp hc)
        have hs : select n D r (.radiusSpec inR outR) strict =
            .ok ((List.range n).filter (fun i => decide (D r i ≤ inR)),
                 (List.range n).filter
                   (fun i => decide (inR < D r i) && decide (D r i ≤ outR))) := by
          simp only [select]
          rw [if_neg h1, if_neg hbf]
        refine ⟨?_, ?_, ?_⟩
        · rw [hs]
          exact ⟨fun h => absurd h (by simp), fun hinv => absurd hinv h1⟩
        · rw [hs]
          exact ⟨fun h => absurd h (by simp), fun h => absurd h.2 hb⟩
        · intro _ _
          exact ⟨_, _, hs⟩
  · by_cases h1 : outer_k < inner_k
    · have hs : select n D r (.knnSpec inner_k outer_k) strict = .error .invalidSpec := by
        simp [select, h1]
      refine ⟨?_, ?_, ?_⟩
      · rw [hs]
        exact ⟨fun _ => h1, fun _ => rfl⟩
      · rw [hs]
        exact ⟨fun h => absurd h (by simp), fun h => absurd h1 h.1⟩
      · intro hni _
        exact absurd h1 hni
    · by_cases hb : n < outer_k + 1
      · have hs : select n D r (.knnSpec inner_k outer_k) strict =
            .error .insufficientPoints := by
          simp only [select]
          rw [if_neg h1, if_pos hb]
        refine ⟨?_, ?_, ?_⟩
        · rw [hs]
          exact ⟨fun h => absurd h (by simp), fun hinv => absurd hinv h1⟩
        · rw [hs]
          exact ⟨fun _ => ⟨h1, hb⟩, fun _ => rfl⟩
        · intro _ hnin
          exact absurd hb hnin
      · have hs : select n D r (.knnSpec inner_k outer_k) strict =
            .ok (r :: (othersSorted n D r).take inner_k,
                 ((othersSorted n D r).drop inner_k).take (outer_k - inner_k)) := by
          simp only [select]
          rw [if_neg h1, if_neg hb]
        refine ⟨?_, ?_, ?_⟩
        · rw [hs]
          exact ⟨fun h => absurd h (by simp), fun hinv => absurd hinv h1⟩
        · rw [hs]
          exact ⟨fun h => absurd h (by simp), fun h => absurd h.2 hb⟩
        · intro _ _
          exact ⟨_, _, hs⟩

/-- C3: the Cone-Point Augmenter's output joins each coned point to the
cone point at its original distance to the reference point — a value no
larger than the outer bound threshold —, gives each kept point no edge to
the cone point (`none`, the infinity sentinel), leaves distances among
original points unchanged from the sub-cloud matrix, and gives the cone
point a zero diagonal entry. -/
theorem claim3_augmenter_output (n : ℕ) (D : ℕ → ℕ → ℚ) (r : ℕ)
    (spec : NeighborhoodSpec) (strict : Bool) (kept coned : List ℕ)
    (hsel : select n D r spec strict = .ok (kept, coned)) :
    (∀ i, kept.length ≤ i → i < (subIndices kept coned).length →
        localComplex D r kept coned i (subIndices kept coned).length
          = some (coneWeights D r kept coned i) ∧
        coneWeights D r kept coned i ≤ outerBound D r spec kept coned) ∧
    (∀ i, i < kept.length →
        localComplex D r kept coned i (subIndices kept coned).length = none) ∧
    (∀ i j, i < (subIndices kept coned).length → j < (subIndices kept coned).length →
        localComplex D r kept coned i j = some (subMatrix D kept coned i j)) ∧
    localComplex D r kept coned (subIndices kept coned).length
        (subIndices kept coned).length = some 0 := by
  refine ⟨?_, ?_, ?_, augment_last _ _⟩
  · intro i hk hi
    refine ⟨(augment_cone_coned hi hk).1, ?_⟩
    have hpmem : (subIndices kept coned).getD i 0 ∈ coned := by
      have hco : (subIndices kept coned).getD i 0 = coned.getD (i - kept.length) 0 :=
        List.getD_append_right kept coned 0 i hk
      rw [hco]
      apply getD_mem_of_lt
      have := hi
      rw [subIndices, List.length_append] at this
      omega
    rcases spec with ⟨inR, outR⟩ | ⟨inner_k, outer_k⟩
    · obtain ⟨-, hc⟩ := select_radius_ok hsel
      obtain ⟨p, hpeq, hpc⟩ : ∃ p, (subIndices kept coned).getD i 0 = p ∧ p ∈ coned :=
        ⟨_, rfl, hpmem⟩
      rw [hc] at hpc
      have hf := List.mem_filter.mp hpc
      simp only [Bool.and_eq_true, decide_eq_true_eq] at hf
      show D r ((subIndices kept coned).getD i 0) ≤ outR
      rw [hpeq]
      exact hf.2.2
    · apply foldr_max_le_of_mem
      exact List.mem_map_of_mem (D r)
        (List.mem_append.mpr (Or.inr hpmem))
  · intro i hik
    have him : i < (subIndices kept coned).length := by
      rw [subIndices, List.length_append]; omega
    exact (augment_cone_kept him hik).1
  · intro i j hi hj
    exact augment_interior hi hj

/-- C3 witness: the 10-point line with radius bounds (1, 2) at reference
point 0 — kept `[0, 1]`, coned `[2]`. -/
theorem claim3_witness :
    (∀ i, ([0, 1] : List ℕ).length ≤ i → i < (subIndices [0, 1] [2]).length →
        localComplex lineD 0 [0, 1] [2] i (subIndices [0, 1] [2]).length
          = some (coneWeights lineD 0 [0, 1] [2] i) ∧
        coneWeights lineD 0 [0, 1] [2] i
          ≤ outerBound lineD 0 (.radiusSpec 1 2) [0, 1] [2]) ∧
    (∀ i, i < ([0, 1] : List ℕ).length →
        localComplex lineD 0 [0, 1] [2] i (subIndices [0, 1] [2]).length = none) ∧
    (∀ i j, i < (subIndices [0, 1] [2]).length → j < (subIndices [0, 1] [2]).length →
        localComplex lineD 0 [0, 1] [2] i j = some (subMatrix lineD [0, 1] [2] i j)) ∧
    localComplex lineD 0 [0, 1] [2] (subIndices [0, 1] [2]).length
        (subIndices [0, 1] [2]).length = some 0 :=
  claim3_augmenter_output 10 lineD 0 (.radiusSpec 1 2) false [0, 1] [2] rfl

/-- C6: for every valid radius spec with equal inner and outer radius, the
coned set is empty, the LocalComplex is the kept sub-cloud plus one cone
point with no finite edge to any other point, and the engine's
dimension-0 feature count on it is the number of kept points plus one. -/
theorem claim6_degenerate_radius (n : ℕ) (D : ℕ → ℕ → ℚ) (r : ℕ) (q : ℚ) (strict : Bool)
    (kept coned : List ℕ)
    (hsel : select n D r (.radiusSpec q q) strict = .ok (kept, coned)) :
    coned = [] ∧
    (∀ i j, i < kept.length → j < kept.length →
        localComplex D r kept coned i j = some (subMatrix D kept coned i j)) ∧
    (∀ i, i < kept.length →
        localComplex D r kept coned i (subIndices kept coned).length = none ∧
        localComplex D r kept coned (subIndices kept coned).length i = none) ∧
    featureCount 0 (persistenceDiagram ((subIndices kept coned).length + 1)
        (localComplex D r kept coned)) = kept.length + 1 := by
  obtain ⟨-, hc⟩ := select_radius_ok hsel
  have hcnil : coned = [] := by
    rw [hc, List.filter_eq_nil_iff]
    intro a _
    simp only [Bool.and_eq_true, decide_eq_true_eq, not_and]
    intro hlt hle
    exact absurd (lt_of_lt_of_le hlt hle) (lt_irrefl q)
  have hm : (subIndices kept coned).length = kept.length := by
    rw [hcnil, subIndices, List.append_nil]
  refine ⟨hcnil, ?_, ?_, ?_⟩
  · intro i j hi hj
    exact augment_interior (by omega) (by omega)
  · intro i hi
    have him : i < (subIndices kept coned).length := by omega
    exact ⟨(augment_cone_kept him hi).1, (augment_cone_kept him hi).2⟩
  · rw [featureCount_zero, hm]

/-- C6 witness: the 10-point line with equal radius bounds (1, 1) at
reference point 0 — kept `[0, 1]`, coned empty, 2 + 1 dimension-0
features. -/
theorem claim6_witness :
    ([] : List ℕ) = [] ∧
    (∀ i j, i < ([0, 1] : List ℕ).length → j < ([0, 1] : List ℕ).length →
        localComplex lineD 0 [0, 1] [] i j = some (subMatrix lineD [0, 1] [] i j)) ∧
    (∀ i, i < ([0, 1] : List ℕ).length →
        localComplex lineD 0 [0, 1] [] i (subIndices [0, 1] []).length = none ∧
        localComplex lineD 0 [0, 1] [] (subIndices [0, 1] []).length i = none) ∧
    featureCount 0 (persistenceDiagram ((subIndices [0, 1] []).length + 1)
        (localComplex lineD 0 [0, 1] [])) = ([0, 1] : List ℕ).length + 1 :=
  claim6_degenerate_radius 10 lineD 0 1 false [0, 1] [] rfl

theorem lookup_runTasks {n : ℕ} {D : ℕ → ℕ → ℚ} {spec : NeighborhoodSpec}
    {strict : Bool} {order : List ℕ} {r : ℕ} (h : r ∈ order) :
    (runTasks n D spec strict order).lookup r
      = some (processPoint n D spec strict r) := by
  induction order with
  | nil => cases h
  | cons a as ih =>
    by_cases hra : r = a
    · subst hra
      simp [runTasks, List.lookup]
    · have hb : (r == a) = false := by simp [hra]
      have hmem : r ∈ as := by
        rcases List.mem_cons.mp h with h' | h'
        · exact absurd h' hra
        · exact h'
      simpa [runTasks, List.lookup, hb] using ih hmem

/-- C5: the Batch Orchestrator is a deterministic pure function of its
input — running it twice yields identical tables, and assembling the rows
of any parallel schedule (any permutation of the tasks) yields exactly
the sequential table. -/
theorem claim5_orchestrator_deterministic (n : ℕ) (D : ℕ → ℕ → ℚ)
    (spec : NeighborhoodSpec) (strict : Bool) (order : List ℕ)
    (hperm : order.Perm (List.range n)) :
    orchestrate n D spec strict = orchestrate n D spec strict ∧
    assemble n (runTasks n D spec strict order)
      = (orchestrate n D spec strict).map some := by
  refine ⟨rfl, ?_⟩
  rw [assemble, orchestrate, List.map_map]
  apply List.map_congr_left
  intro r hr
  have hmem : r ∈ order := hperm.mem_iff.mpr hr
  simpa using lookup_runTasks hmem

/-- C5 witness: a 2-point cloud processed in the schedule `[1, 0]`. -/
theorem claim5_witness :
    orchestrate 2 lineD (.radiusSpec 1 1) false
        = orchestrate 2 lineD (.radiusSpec 1 1) false ∧
    assemble 2 (runTasks 2 lineD (.radiusSpec 1 1) false [1, 0])
      = (orchestrate 2 lineD (.radiusSpec 1 1) false).map some :=
  claim5_orchestrator_deterministic 2 lineD (.radiusSpec 1 1) false [1, 0] (by decide)

theorem circle_zip_eq (n : ℕ) : ∀ (k s : ℕ),
    (List.range' s k).zip (((List.range' (s + 1) k).map (fun c => c % n)).zip
        (List.replicate k (1 : ℚ)))
      = (List.range' s k).map (fun i => (i, (i + 1) % n, (1 : ℚ))) := by
  intro k
  induction k with
  | zero => intro s; rfl
  | succ k ih =>
    intro s
    rw [List.range'_succ, List.range'_succ, List.replicate_succ, List.map_cons,
      List.zip_cons_cons, List.zip_cons_cons, List.map_cons, ih (s + 1)]

/-- C8: `make_circle_adjacency` returns the same COO matrix whatever the
`directed` argument: the parameter is never read in the body, and the
result is the `n × n` matrix with ones at positions `(i, (i+1) % n)`. -/
theorem claim8_directed_unused (n : ℕ) (b1 b2 : Bool) :
    make_circle_adjacency n b1 = make_circle_adjacency n b2 ∧
    make_circle_adjacency n b1
      = (List.range n).map (fun i => (i, (i + 1) % n, (1 : ℚ))) := by
  refine ⟨rfl, ?_⟩
  show (List.range n).zip (((List.range' 1 n).map (fun c => c % n)).zip
      (List.replicate n (1 : ℚ))) = _
  rw [List.range_eq_range']
  exact circle_zip_eq n n 0

/-- C9: the stopword-removal line of the NLP preprocessing cell is dead —
its result is immediately overwritten by the `stem` pass over the same
`temp_list` — so the cell equals the cell with that line deleted, for
every corpus and every behaviour of the two text primitives. -/
theorem claim9_stopwords_dead (remove_stopwords stem : List Char → List Char)
    (temp_list : List (List Char)) :
    preprocessCell remove_stopwords stem temp_list
      = preprocessCellNoStop stem temp_list := rfl

theorem filterMap_congr_mem {α β : Type} {l : List α} {f g : α → Option β}
    (h : ∀ a ∈ l, f a = g a) : l.filterMap f = l.filterMap g := by
  induction l with
  | nil => rfl
  | cons a as ih =>
    rw [List.filterMap_cons, List.filterMap_cons, h a (List.mem_cons_self a as),
      ih (fun b hb => h b (List.mem_cons_of_mem a hb))]

theorem mem_pairsBelow {N : ℕ} {p : ℕ × ℕ} (h : p ∈ pairsBelow N) :
    p.1 < p.2 ∧ p.2 < N := by
  simp only [pairsBelow, List.mem_flatten, List.mem_map] at h
  obtain ⟨l, ⟨j, hj, rfl⟩, hp⟩ := h
  obtain ⟨i, hi, rfl⟩ := List.mem_map.mp hp
  exact ⟨List.mem_range.mp hi, List.mem_range.mp hj⟩

theorem mem_triplesBelow {N : ℕ} {t : ℕ × ℕ × ℕ} (h : t ∈ triplesBelow N) :
    t.1 < t.2.1 ∧ t.2.1 < t.2.2 ∧ t.2.2 < N := by
  simp only [triplesBelow, List.mem_flatten, List.mem_map] at h
  obtain ⟨l, ⟨p, hp, rfl⟩, ht⟩ := h
  obtain ⟨a, ha, rfl⟩ := List.mem_map.mp ht
  have hpb := mem_pairsBelow hp
  exact ⟨List.mem_range.mp ha, hpb.1, hpb.2⟩

/-- The engine reads its input matrix only at indices below the declared
size, so matrices agreeing there yield the same diagram. -/
theorem persistenceDiagram_congr {N : ℕ} {M M' : ℕ → ℕ → Option ℚ}
    (h : ∀ i < N, ∀ j < N, M i j = M' i j) :
    persistenceDiagram N M = persistenceDiagram N M' := by
  have hv : vertexList N M = vertexList N M' := by
    apply List.map_congr_left
    intro i hi
    rw [h i (List.mem_range.mp hi) i (List.mem_range.mp hi)]
  have he : edgeList N M = edgeList N M' := by
    apply filterMap_congr_mem
    intro p hp
    have hb := mem_pairsBelow hp
    rw [h p.1 (hb.1.trans hb.2) p.2 hb.2]
  have ht : triangleList N M = triangleList N M' := by
    apply filterMap_congr_mem
    intro t htm
    have hb := mem_triplesBelow htm
    rw [h t.1 (hb.1.trans (hb.2.1.trans hb.2.2)) t.2.1 (hb.2.1.trans hb.2.2),
      h t.1 (hb.1.trans (hb.2.1.trans hb.2.2)) t.2.2 hb.2.2,
      h t.2.1 (hb.2.1.trans hb.2.2) t.2.2 hb.2.2]
  rw [persistenceDiagram, persistenceDiagram, sortedSimplices, sortedSimplices, hv, he, ht]

theorem getD_map_findIdx {α β : Type} [BEq α] [LawfulBEq α] (L : List α) (f : α → β)
    (x : α) (d : β) (h : x ∈ L) :
    (L.map f).getD (L.findIdx (fun p => p == x)) d = f x := by
  induction L with
  | nil => cases h
  | cons a as ih =>
    rw [List.map_cons, List.findIdx_cons]
    by_cases hax : (a == x) = true
    · simp only [hax, cond_true, List.getD_cons_zero]
      exact congrArg f (eq_of_beq hax)
    · have hb : (a == x) = false := by
        rcases ha : (a == x) with - | -
        · rfl
        · exact absurd ha hax
      have hmem : x ∈ as := by
        rcases List.mem_cons.mp h with h' | h'
        · exact absurd (by rw [h']; exact beq_self_eq_true a) hax
        · exact h'
      simp only [hb, cond_false, List.getD_cons_succ]
      exact ih hmem

theorem squareform_pdist {n : ℕ} {d : ℕ → ℕ → ℚ}
    (hsym : ∀ i < n, ∀ j < n, d i j = d j i)
    (hdiag : ∀ i < n, d i i = 0) :
    ∀ i < n, ∀ j < n, squareform n (pdist n d) i j = d i j := by
  have key : ∀ i j, i < j → j < n → (pdist n d).getD (condensedIndex n i j) 0 = d i j := by
    intro i j hij hjn
    have hmem : (i, j) ∈ upperPairs n := by
      simp only [upperPairs, List.mem_flatten, List.mem_map]
      refine ⟨(List.range' (i + 1) (n - (i + 1))).map (fun j' => (i, j')),
        ⟨i, List.mem_range.mpr (by omega), rfl⟩, ?_⟩
      exact List.mem_map.mpr ⟨j, List.mem_range'_1.mpr ⟨by omega, by omega⟩, rfl⟩
    exact getD_map_findIdx (upperPairs n) (fun p => d p.1 p.2) (i, j) 0 hmem
  intro i hi j hj
  rw [squareform]
  by_cases hij : i = j
  · subst hij
    rw [if_pos rfl, hdiag i hi]
  · rw [if_neg hij]
    rcases Nat.lt_or_ge i j with hlt | hge
    · rw [if_pos hlt]
      exact key i j hlt hj
    · have hgt : j < i := by omega
      rw [if_neg (by omega)]
      rw [key j i hgt hi]
      exact (hsym j hj i hi)

/-- C10: running `VietorisRipsPersistence` directly on a point cloud (its
metric evaluated pointwise; the Euclidean metric is symmetric with zero
self-distance, the two properties used here) equals running it with
`metric="precomputed"` on `squareform(pdist(cloud))`, as the notebook
asserts with `np.array_equal`. -/
theorem claim10_pointcloud_precomputed_equal (n : ℕ) (d : ℕ → ℕ → ℚ)
    (hsym : ∀ i < n, ∀ j < n, d i j = d j i)
    (hdiag : ∀ i < n, d i i = 0) :
    vietorisRipsPointCloud n d
      = vietorisRipsPrecomputed n (squareform n (pdist n d)) := by
  apply persistenceDiagram_congr
  intro i hi j hj
  exact congrArg some (squareform_pdist hsym hdiag i hi j hj).symm

/-- C10 witness: a 3-point cloud on the line. -/
theorem claim10_witness :
    vietorisRipsPointCloud 3 lineD
      = vietorisRipsPrecomputed 3 (squareform 3 (pdist 3 lineD)) :=
  claim10_pointcloud_precomputed_equal 3 lineD (by decide) (by decide)

set_option maxRecDepth 1000000 in
set_option maxHeartbeats 4000000 in
set_option maxRecDepth 1000000 in
set_option maxHeartbeats 4000000 in
theorem lineH1Count_at_0 : lineH1Count 0 = some 0 := by decide

set_option maxRecDepth 1000000 in
set_option maxHeartbeats 4000000 in
theorem lineH1Count_at_1 : lineH1Count 1 = some 0 := by decide

set_option maxRecDepth 1000000 in
set_option maxHeartbeats 4000000 in
theorem lineH1Count_at_2 : lineH1Count 2 = some 1 := by decide

set_option maxRecDepth 1000000 in
set_option maxHeartbeats 4000000 in
theorem lineH1Count_at_3 : lineH1Count 3 = some 1 := by decide

set_option maxRecDepth 1000000 in
set_option maxHeartbeats 4000000 in
theorem lineH1Count_at_4 : lineH1Count 4 = some 1 := by decide

set_option maxRecDepth 1000000 in
set_option maxHeartbeats 4000000 in
theorem lineH1Count_at_5 : lineH1Count 5 = some 1 := by decide

set_option maxRecDepth 1000000 in
set_option maxHeartbeats 4000000 in
theorem lineH1Count_at_6 : lineH1Count 6 = some 1 := by decide

set_option maxRecDepth 1000000 in
set_option maxHeartbeats 4000000 in
theorem lineH1Count_at_7 : lineH1Count 7 = some 1 := by decide

set_option maxRecDepth 1000000 in
set_option maxHeartbeats 4000000 in
theorem lineH1Count_at_8 : lineH1Count 8 = some 1 := by decide

set_option maxRecDepth 1000000 in
set_option maxHeartbeats 4000000 in
theorem lineH1Count_at_9 : lineH1Count 9 = some 0 := by decide

/-- C4 counterexample: reference point 1 of the 10-point uniform line is
an interior point (it is not an endpoint), yet with `KNNSpec(1, 7)` the
pipeline yields zero — not one — nontrivial dimension-1 features there:
its two nearest neighbours 0 and 2 tie at distance 1, the deterministic
index tie-break keeps endpoint 0, and a kept point gets no edge to the
cone point, so the loop never closes. -/
theorem claim4_counterexample : lineH1Count 1 ≠ some 1 := by
  rw [lineH1Count_at_1]
  decide

/-- C4 (amended): on the 10-point uniform line with `KNNSpec(1, 7)`,
reference points 2 through 8 yield exactly one nontrivial dimension-1
local homology feature after coning; the boundary points 0 and 9 yield
zero, and so does the interior point 1, whose nearest-neighbour tie is
broken toward the endpoint 0 (which is then kept, not coned). -/
theorem claim4_line_counts :
    (List.range 10).map lineH1Count
      = [some 0, some 0, some 1, some 1, some 1, some 1, some 1, some 1, some 1,
         some 0] := by
  have hexp : (List.range 10).map lineH1Count
      = [lineH1Count 0, lineH1Count 1, lineH1Count 2, lineH1Count 3, lineH1Count 4,
         lineH1Count 5, lineH1Count 6, lineH1Count 7, lineH1Count 8, lineH1Count 9] := rfl
  rw [hexp, lineH1Count_at_0, lineH1Count_at_1, lineH1Count_at_2, lineH1Count_at_3,
    lineH1Count_at_4, lineH1Count_at_5, lineH1Count_at_6, lineH1Count_at_7,
    lineH1Count_at_8, lineH1Count_at_9]

set_option maxRecDepth 1000000 in
set_option maxHeartbeats 4000000 in
/-- C7: at the 4-branch intersection point of the X-shaped cloud,
radius bounds keeping the intersection and coning the four branch points
yield exactly `4 - 1 = 3` independent nontrivial dimension-1 loops
(consistent with the coned-off X's Euler characteristic of `-2`). -/
theorem claim7_x_branch_loops : xH1Count = some (4 - 1) := by decide

end LocalHom
